import Mathlib

/-!
Shallow embedding of `html_to_json.py` (3d-knitting-llm): the needle-size
normalizer, shape/technique taxonomy classifier, download-link extractor,
labeled-field extraction loop of `parse_html`, and the translation wrapper.

Conventions of the embedding:
* Python `str` is Lean `String`; scanners work on `List Char`.
* Python floats are modelled as exact nonnegative decimals `PyFloat`
  (numerator over a power-of-ten denominator).  Every comparison and
  printed value appearing in a theorem below is far from any binary
  floating-point rounding boundary, so the exact model agrees with the
  float semantics there.  `pyFloatStr` reproduces `repr(float)` on such
  values (shortest terminating decimal, with a trailing `.0` for integers).
* Python `set` iteration order is unspecified; `pySet` models a set as a
  first-occurrence deduplicated list, and theorems rely only on membership
  and duplicate-freeness, never on its order.
* The two `re.findall` calls of `normalize_needle` are realized as direct
  left-to-right scanners (`mmFindAll`, `usFindAll`).  For these two
  patterns, greedy matching with backtracking coincides with the
  backtracking-free scan: the character classes of adjacent pattern pieces
  are disjoint, so a shorter greedy take can never rescue a failed match.
-/

/-- Python `\s` on the ASCII range: space, tab, LF, VT, FF, CR. -/
def isPySpace (c : Char) : Bool :=
  c.toNat == 32 || (9 ≤ c.toNat && c.toNat ≤ 13)

/-- Python `str.lower()` (ASCII; all inputs below are ASCII). -/
def pyLower (s : String) : String :=
  String.mk (s.toList.map Char.toLower)

/-- Python substring test `needle in hay` (on `List Char`). -/
def occursInL (needle : List Char) : List Char → Bool
  | [] => needle.isEmpty
  | c :: hay => needle.isPrefixOf (c :: hay) || occursInL needle hay

/-- Python substring test `needle in hay` for strings. -/
def pyIn (needle hay : String) : Bool :=
  occursInL needle.toList hay.toList

/-- Python `str.startswith`. -/
def pyStartsWith (s pre : String) : Bool :=
  pre.toList.isPrefixOf s.toList

/-- Part of `clean`: collapse each whitespace run to one space.  The flag
records whether the previous character was whitespace. -/
def collapseWsAux : Bool → List Char → List Char
  | _, [] => []
  | prev, c :: cs =>
    if isPySpace c then
      if prev then collapseWsAux true cs else ' ' :: collapseWsAux true cs
    else c :: collapseWsAux false cs

/-- Strip leading and trailing Python whitespace. -/
def pyStrip (l : List Char) : List Char :=
  ((l.dropWhile isPySpace).reverse.dropWhile isPySpace).reverse

/-- `clean(text)` of the source: `re.sub(r"\s+", " ", text).strip()`. -/
def clean (s : String) : String :=
  String.mk (pyStrip (collapseWsAux false s.toList))

/-- A nonnegative Python float with an exact decimal value: `num / den`,
`den` a power of ten. -/
structure PyFloat where
  num : Nat
  den : Nat
  deriving DecidableEq, Repr

/-- Numerator of `|a - b|` over the common denominator `a.den * b.den`. -/
def absDiffNum (a b : PyFloat) : Nat :=
  let l := a.num * b.den
  let r := b.num * a.den
  if r ≤ l then l - r else r - l

/-- `abs(a - b) < 0.15` (`0.15 = 3/20`), by cross multiplication. -/
def absDiffLtTol (a b : PyFloat) : Bool :=
  absDiffNum a b * 20 < 3 * (a.den * b.den)

/-- `abs(x - mm) < abs(y - mm)`, by cross multiplication. -/
def closerTo (x y mm : PyFloat) : Bool :=
  absDiffNum x mm * (y.den * mm.den) < absDiffNum y mm * (x.den * mm.den)

/-- Numeric value of a run of decimal digits. -/
def digitsVal (ds : List Char) : Nat :=
  ds.foldl (fun a c => a * 10 + (c.toNat - 48)) 0

/-- `float(s)` for a string matching `\d+(\.\d+)?`. -/
def parseFloat (s : List Char) : PyFloat :=
  let ip := s.takeWhile Char.isDigit
  match s.dropWhile Char.isDigit with
  | '.' :: fr => ⟨digitsVal ip * 10 ^ fr.length + digitsVal fr, 10 ^ fr.length⟩
  | _ => ⟨digitsVal ip, 1⟩

/-- Decimal digits of the fractional part `r/d` by long division (fueled;
every value reaching it below has a terminating decimal expansion). -/
def fracDigitsAux : Nat → Nat → Nat → List Nat
  | 0, _, _ => []
  | fuel + 1, r, d =>
    if r == 0 then []
    else (r * 10 / d) :: fracDigitsAux fuel (r * 10 % d) d

/-- Python `repr`/`str` of such a float: shortest terminating decimal,
with a trailing `.0` for integral values: `7/1 ↦ "7.0"`, `450/100 ↦ "4.5"`,
`212/100 ↦ "2.12"`. -/
def pyFloatStr (q : PyFloat) : String :=
  let ds := fracDigitsAux 20 (q.num % q.den) q.den
  let frac := if ds.isEmpty then "0" else String.mk (ds.map (fun k => Char.ofNat (48 + k)))
  toString (q.num / q.den) ++ "." ++ frac

/-- The `US_NEEDLES` dict, in insertion order (Python dicts iterate in
insertion order).  Values are in hundredths of a millimeter over 100. -/
def US_NEEDLES : List (String × PyFloat) :=
  [("0", ⟨200, 100⟩), ("1", ⟨225, 100⟩), ("2", ⟨275, 100⟩), ("3", ⟨325, 100⟩),
   ("4", ⟨350, 100⟩), ("5", ⟨375, 100⟩), ("6", ⟨400, 100⟩), ("7", ⟨450, 100⟩),
   ("8", ⟨500, 100⟩), ("9", ⟨550, 100⟩), ("10", ⟨600, 100⟩), ("10.5", ⟨650, 100⟩),
   ("11", ⟨800, 100⟩), ("13", ⟨900, 100⟩), ("15", ⟨1000, 100⟩)]

/-- Match of `(\d+(\.\d+)?)\s*mm` anchored at the head of `s`: returns the
capture group and the remainder after the whole match. -/
def mmMatchAt (s : List Char) : Option (List Char × List Char) :=
  let ds := s.takeWhile Char.isDigit
  if ds.isEmpty then none
  else
    let r1 := s.dropWhile Char.isDigit
    let capRest : List Char × List Char :=
      match r1 with
      | '.' :: t =>
        let fs := t.takeWhile Char.isDigit
        if fs.isEmpty then (ds, r1) else (ds ++ '.' :: fs, t.dropWhile Char.isDigit)
      | _ => (ds, r1)
    match capRest.2.dropWhile isPySpace with
    | 'm' :: 'm' :: rest => some (capRest.1, rest)
    | _ => none

/-- `re.findall(r"(\d+(\.\d+)?)\s*mm", s)` (the outer capture group),
scanning left to right with non-overlapping matches.  Fueled by the input
length; a successful match always consumes at least one character, so the
fuel suffices. -/
def mmFindAllAux : Nat → List Char → List (List Char)
  | 0, _ => []
  | _, [] => []
  | fuel + 1, c :: cs =>
    match mmMatchAt (c :: cs) with
    | some (cap, rest) => cap :: mmFindAllAux fuel rest
    | none => mmFindAllAux fuel cs

def mmFindAll (s : List Char) : List (List Char) :=
  mmFindAllAux s.length s

/-- Match of `us\s*([\d\.]+)` anchored at the head of `s`. -/
def usMatchAt (s : List Char) : Option (List Char × List Char) :=
  match s with
  | 'u' :: 's' :: t =>
    let t2 := t.dropWhile isPySpace
    let cap := t2.takeWhile (fun c => c.isDigit || c == '.')
    if cap.isEmpty then none
    else some (cap, t2.dropWhile (fun c => c.isDigit || c == '.'))
  | _ => none

/-- `re.findall(r"us\s*([\d\.]+)", s)`, left to right, non-overlapping. -/
def usFindAllAux : Nat → List Char → List (List Char)
  | 0, _ => []
  | _, [] => []
  | fuel + 1, c :: cs =>
    match usMatchAt (c :: cs) with
    | some (cap, rest) => cap :: usFindAllAux fuel rest
    | none => usFindAllAux fuel cs

def usFindAll (s : List Char) : List (List Char) :=
  usFindAllAux s.length s

/-- The lookup loop of `normalize_needle`: `us = None; for k, v in
US_NEEDLES.items(): if abs(v - mm) < 0.15: us = k` — the LAST entry in
iteration order within tolerance wins. -/
def mmLookupLoop (mm : PyFloat) : Option String :=
  US_NEEDLES.foldl (fun us kv => if absDiffLtTol kv.2 mm then some kv.1 else us) none

/-- `US_NEEDLES.get(us)`: dict lookup by exact key. -/
def usLookup (k : String) : Option PyFloat :=
  (US_NEEDLES.find? (fun kv => kv.1 == k)).map (fun kv => kv.2)

/-- The fragment emitted for one extracted metric value. -/
def mmFragment (mm : PyFloat) : String :=
  match mmLookupLoop mm with
  | some k => "US " ++ k ++ " (" ++ pyFloatStr mm ++ " mm)"
  | none => pyFloatStr mm ++ " mm"

/-- The fragment emitted for one extracted US capture.  `if mm:` in the
source tests float truthiness, so a table value of `0.0` would fall to the
bare branch; no table value is `0`, but the test is kept faithfully. -/
def usFragment (us : String) : String :=
  match usLookup us with
  | some mm =>
    if mm.num == 0 then "US " ++ us
    else "US " ++ us ++ " (" ++ pyFloatStr mm ++ " mm)"
  | none => "US " ++ us

/-- All fragments of `normalize_needle` on the (already lower-cased)
value: metric-derived first, then US-derived, in extraction order. -/
def needleResults (v : String) : List String :=
  (mmFindAll v.toList).map (fun cap => mmFragment (parseFloat cap))
    ++ (usFindAll v.toList).map (fun cap => usFragment (String.mk cap))

/-- `normalize_needle` of the source. -/
def normalize_needle (val : String) : String :=
  if val = "" then ""
  else
    let v := pyLower val
    let results := needleResults v
    if results = [] then v else String.intercalate ", " results

/-- The fixed technique vocabulary, in source order. -/
def TECHNIQUES : List String :=
  ["short rows", "increases", "decreases",
   "worked flat", "worked in the round", "top-down", "bottom-up",
   "modular", "seamed", "pick up stitches", "grafting"]

/-- The `SHAPE_RULES` dict as an ordered association list (Python dicts
iterate in insertion order). -/
def SHAPE_RULES : List (String × List String) :=
  [("sphere", ["ball", "round", "sphere", "egg"]),
   ("cube", ["cube", "box", "square plush", "block"]),
   ("cone", ["cone", "tree", "hat cone"]),
   ("pyramid", ["pyramid", "tetra"]),
   ("cylinder", ["tube", "sock", "sleeve", "leg warmer"]),
   ("softie", ["toy", "amigurumi", "softie", "plush"])]

/-- The loop body of `detect_shape`: first rule with a matching keyword. -/
def detectShapeAux (t : String) : List (String × List String) → String
  | [] => "unknown"
  | (shape, keys) :: rest =>
    if keys.any (fun k => pyIn k t) then shape else detectShapeAux t rest

/-- `detect_shape` of the source. -/
def detect_shape (text : String) : String :=
  detectShapeAux (pyLower text) SHAPE_RULES

/-- Python `list(set(xs))`: deduplicated, order unspecified in Python
(hash order); modelled by `List.dedup`, and theorems use only membership
and duplicate-freeness, never the order. -/
def pySet (xs : List String) : List String :=
  xs.dedup

/-- Python string comparison: lexicographic on code points. -/
def listLexLe : List Char → List Char → Bool
  | [], _ => true
  | _ :: _, [] => false
  | a :: as, b :: bs =>
    if a.toNat < b.toNat then true
    else if b.toNat < a.toNat then false
    else listLexLe as bs

def strLe (a b : String) : Bool :=
  listLexLe a.toList b.toList

/-- Python `sorted` (stable; keys here are distinct, so any correct sort
yields the same list). -/
def pySorted (xs : List String) : List String :=
  xs.insertionSort (fun a b => strLe a b = true)

/-- `sorted({t for t in TECHNIQUES if t in text})` where the source lowers
`text` first (line 154). -/
def techniquesOf (text : String) : List String :=
  pySorted (pySet (TECHNIQUES.filter (fun t => pyIn t (pyLower text))))

/-- The filter of `extract_download_links` applied to one href. -/
def linkCond (href : String) : Bool :=
  ([".pdf", "download", "pattern"].any (fun x => pyIn x (pyLower href)))
    && (pyIn "ravelry" href || pyStartsWith href "http")

/-- `extract_download_links`, on the sequence of href attributes of the
page's anchors: filter then `list(set(urls))`. -/
def extract_download_links (hrefs : List String) : List String :=
  pySet (hrefs.filter linkCond)

/-- `translate_to_english`: the external translator is a parameter that
either returns a translation or fails; the `try/except` returns the
original text on any failure (the warning print is I/O and not modelled). -/
def translate_to_english (call : String → Except String String) (text : String) : String :=
  match call text with
  | Except.ok t => t
  | Except.error _ => text

/-- A translator stub that always fails, instantiating the external call. -/
def translateFailStub : String → Except String String :=
  fun _ => Except.error "HTTPSConnection timeout"

/-- A translator stub that always succeeds, instantiating the external call. -/
def translateOkStub : String → Except String String :=
  fun s => Except.ok ("EN " ++ s)

/-- One labeled field block of `parse_html`'s loop: the label text (if a
label element was found), the value text (if a value div was found), and
the texts of the spans inside the value (used by the languages rule). -/
structure Block where
  lab : Option String
  val : Option String
  spans : List String

/-- The fields of `result` written by the labeled-field loop. -/
structure FieldState where
  craft : Option String
  category : Option String
  needle_size : Option String
  yarns : List String
  sizes_available : Option String
  languages : Option (List String)
  deriving DecidableEq

def FieldState.init : FieldState :=
  ⟨none, none, none, [], none, none⟩

/-- One iteration of the field loop: skip when label or value is missing,
else run the six independent substring tests in source order. -/
def processBlock (s : FieldState) (b : Block) : FieldState :=
  match b.lab, b.val with
  | some labText, some valText =>
    let key := pyLower (clean labText)
    let v := clean valText
    let s1 := if pyIn "craft" key then { s with craft := some v } else s
    let s2 := if pyIn "category" key then { s1 with category := some v } else s1
    let s3 := if pyIn "needle" key then { s2 with needle_size := some (normalize_needle v) } else s2
    let s4 := if pyIn "yarn" key then { s3 with yarns := s3.yarns ++ [v] } else s3
    let s5 := if pyIn "sizes available" key then { s4 with sizes_available := some v } else s4
    let s6 := if pyIn "languages" key then { s5 with languages := some (b.spans.map clean) } else s5
    s6
  | _, _ => s

/-- The whole labeled-field loop of `parse_html`. -/
def processFields (bs : List Block) : FieldState :=
  bs.foldl processBlock FieldState.init

/-- Whether a block matches the rule whose substring is `r` (requires both
a label and a value, like the loop's skip guard). -/
def bMatch (r : String) (b : Block) : Bool :=
  match b.lab, b.val with
  | some l, some _ => pyIn r (pyLower (clean l))
  | _, _ => false

/-- The cleaned value text of a block. -/
def bValue (b : Block) : String :=
  clean (b.val.getD "")

/-- The most recent block matching rule `r` (spec-side description of the
overwrite semantics). -/
def lastMatch (r : String) (bs : List Block) : Option Block :=
  bs.foldl (fun acc b => if bMatch r b then some b else acc) none

/-- Modelled from the spec (§4.1 step 3), for comparison with the code:
the table entry closest to `mm` by absolute difference (first entry on
ties), accepted only when its difference is strictly below the tolerance. -/
def closestEntry (mm : PyFloat) : Option (String × PyFloat) :=
  US_NEEDLES.foldl
    (fun best kv =>
      match best with
      | none => some kv
      | some b => if closerTo kv.2 b.2 mm then some kv else best)
    none

/-- Modelled from the spec (§4.1 step 3): the fragment the spec's
closest-entry rule would emit for one metric value. -/
def specClosestFragment (mm : PyFloat) : String :=
  match closestEntry mm with
  | some kv =>
    if absDiffLtTol kv.2 mm then "US " ++ kv.1 ++ " (" ++ pyFloatStr mm ++ " mm)"
    else pyFloatStr mm ++ " mm"
  | none => pyFloatStr mm ++ " mm"

/-- The last table entry in iteration order within tolerance of `mm`
(spec-side description of the loop's actual selection rule). -/
def lastTolEntry (mm : PyFloat) : Option String :=
  (US_NEEDLES.reverse.find? (fun kv => absDiffLtTol kv.2 mm)).map (fun kv => kv.1)

theorem listLexLe_total : ∀ x y, listLexLe x y = true ∨ listLexLe y x = true
  | [], _ => Or.inl rfl
  | _ :: _, [] => Or.inr rfl
  | a :: as, b :: bs => by
    rcases Nat.lt_trichotomy a.toNat b.toNat with h | h | h
    · left
      simp [listLexLe, h]
    · rcases listLexLe_total as bs with ih | ih
      · left
        simp [listLexLe, h, ih]
      · right
        simp [listLexLe, h, ih]
    · right
      simp [listLexLe, h]

theorem listLexLe_trans : ∀ x y z, listLexLe x y = true → listLexLe y z = true →
    listLexLe x z = true
  | [], _, _, _, _ => rfl
  | _ :: _, [], _, h, _ => by simp [listLexLe] at h
  | _ :: _, _ :: _, [], _, h => by simp [listLexLe] at h
  | a :: as, b :: bs, c :: cs, h1, h2 => by
    simp only [listLexLe] at h1 h2 ⊢
    by_cases hab : a.toNat < b.toNat
    · by_cases hbc : b.toNat < c.toNat
      · simp [show a.toNat < c.toNat by omega]
      · by_cases hcb : c.toNat < b.toNat
        · rw [if_neg hbc, if_pos hcb] at h2
          exact absurd h2 (by simp)
        · simp [show a.toNat < c.toNat by omega]
    · by_cases hba : b.toNat < a.toNat
      · rw [if_neg hab, if_pos hba] at h1
        exact absurd h1 (by simp)
      · rw [if_neg hab, if_neg hba] at h1
        by_cases hbc : b.toNat < c.toNat
        · simp [show a.toNat < c.toNat by omega]
        · by_cases hcb : c.toNat < b.toNat
          · rw [if_neg hbc, if_pos hcb] at h2
            exact absurd h2 (by simp)
          · rw [if_neg hbc, if_neg hcb] at h2
            rw [if_neg (show ¬a.toNat < c.toNat by omega),
              if_neg (show ¬c.toNat < a.toNat by omega)]
            exact listLexLe_trans as bs cs h1 h2

instance : IsTotal String (fun a b => strLe a b = true) :=
  ⟨fun a b => listLexLe_total a.toList b.toList⟩

instance : IsTrans String (fun a b => strLe a b = true) :=
  ⟨fun a b c => listLexLe_trans a.toList b.toList c.toList⟩

/-- A fold that replaces its accumulator on every `p`-positive element
computes `f` of the last such element (else keeps the start value). -/
theorem foldl_lastPick {β α : Type} (p : β → Bool) (f : β → α) :
    ∀ (l : List β) (acc : Option α),
      l.foldl (fun a b => if p b then some (f b) else a) acc
        = (l.reverse.find? p).elim acc (fun b => some (f b)) := by
  intro l
  induction l with
  | nil => intro acc; rfl
  | cons b t ih =>
    intro acc
    simp only [List.foldl_cons, ih, List.reverse_cons, List.find?_append]
    cases htf : t.reverse.find? p with
    | some x => simp [Option.or]
    | none =>
      cases hb : p b with
      | true => simp [Option.or, List.find?, hb]
      | false => simp [Option.or, List.find?, hb]

/-- Mapping `f` over a last-match fold of the elements themselves. -/
theorem foldl_pick_map {β α : Type} (p : β → Bool) (f : β → α) :
    ∀ (l : List β) (acc : Option β),
      (l.foldl (fun a b => if p b then some b else a) acc).map f
        = l.foldl (fun a b => if p b then some (f b) else a) (acc.map f) := by
  intro l
  induction l with
  | nil => intro acc; rfl
  | cons b t ih =>
    intro acc
    cases hb : p b <;> simp [List.foldl_cons, hb, ih]

/-- A fold that appends `f` of every `p`-positive element accumulates the
mapped filter, in order. -/
theorem foldl_accumulate {β α : Type} (p : β → Bool) (f : β → α) :
    ∀ (l : List β) (ys : List α),
      l.foldl (fun a b => if p b then a ++ [f b] else a) ys
        = ys ++ (l.filter p).map f := by
  intro l
  induction l with
  | nil => intro ys; simp
  | cons b t ih =>
    intro ys
    cases hb : p b <;> simp [List.foldl_cons, hb, ih, List.filter_cons]

/-- Pushing a `FieldState` projection through the field-loop fold. -/
theorem foldl_field {γ : Type} (proj : FieldState → γ) (step : γ → Block → γ)
    (hstep : ∀ s b, proj (processBlock s b) = step (proj s) b) :
    ∀ (bs : List Block) (s : FieldState),
      proj (bs.foldl processBlock s) = bs.foldl step (proj s) := by
  intro bs
  induction bs with
  | nil => intro s; rfl
  | cons b t ih => intro s; simp [List.foldl_cons, hstep, ih]

theorem processBlock_craft (s : FieldState) (b : Block) :
    (processBlock s b).craft = if bMatch "craft" b then some (bValue b) else s.craft := by
  rcases b with ⟨lab, val, spans⟩
  cases lab with
  | none => simp [processBlock, bMatch]
  | some l =>
    cases val with
    | none => simp [processBlock, bMatch]
    | some v =>
      simp only [processBlock, bMatch, bValue, Option.getD]
      split_ifs <;> rfl

theorem processBlock_category (s : FieldState) (b : Block) :
    (processBlock s b).category = if bMatch "category" b then some (bValue b) else s.category := by
  rcases b with ⟨lab, val, spans⟩
  cases lab with
  | none => simp [processBlock, bMatch]
  | some l =>
    cases val with
    | none => simp [processBlock, bMatch]
    | some v =>
      simp only [processBlock, bMatch, bValue, Option.getD]
      split_ifs <;> rfl

theorem processBlock_needle (s : FieldState) (b : Block) :
    (processBlock s b).needle_size
      = if bMatch "needle" b then some (normalize_needle (bValue b)) else s.needle_size := by
  rcases b with ⟨lab, val, spans⟩
  cases lab with
  | none => simp [processBlock, bMatch]
  | some l =>
    cases val with
    | none => simp [processBlock, bMatch]
    | some v =>
      simp only [processBlock, bMatch, bValue, Option.getD]
      split_ifs <;> rfl

theorem processBlock_yarns (s : FieldState) (b : Block) :
    (processBlock s b).yarns = if bMatch "yarn" b then s.yarns ++ [bValue b] else s.yarns := by
  rcases b with ⟨lab, val, spans⟩
  cases lab with
  | none => simp [processBlock, bMatch]
  | some l =>
    cases val with
    | none => simp [processBlock, bMatch]
    | some v =>
      simp only [processBlock, bMatch, bValue, Option.getD]
      split_ifs <;> rfl

theorem processBlock_sizes (s : FieldState) (b : Block) :
    (processBlock s b).sizes_available
      = if bMatch "sizes available" b then some (bValue b) else s.sizes_available := by
  rcases b with ⟨lab, val, spans⟩
  cases lab with
  | none => simp [processBlock, bMatch]
  | some l =>
    cases val with
    | none => simp [processBlock, bMatch]
    | some v =>
      simp only [processBlock, bMatch, bValue, Option.getD]
      split_ifs <;> rfl

theorem processBlock_languages (s : FieldState) (b : Block) :
    (processBlock s b).languages
      = if bMatch "languages" b then some (b.spans.map clean) else s.languages := by
  rcases b with ⟨lab, val, spans⟩
  cases lab with
  | none => simp [processBlock, bMatch]
  | some l =>
    cases val with
    | none => simp [processBlock, bMatch]
    | some v =>
      simp only [processBlock, bMatch, bValue, Option.getD]
      split_ifs <;> rfl

/-- The first rule whose keyword list matches wins, in list order. -/
theorem detectShapeAux_find : ∀ (rules : List (String × List String)) (t : String),
    detectShapeAux t rules
      = ((rules.find? (fun r => r.2.any (fun k => pyIn k t))).map Prod.fst).getD "unknown" := by
  intro rules
  induction rules with
  | nil => intro t; rfl
  | cons r rest ih =>
    intro t
    rcases r with ⟨shape, keys⟩
    by_cases h : keys.any (fun k => pyIn k t) = true
    · simp [detectShapeAux, h, List.find?_cons_of_pos]
    · simp only [Bool.not_eq_true] at h
      simp [detectShapeAux, h, List.find?_cons_of_neg, ih]

/-- Claim C5 (confirmed): shape classification walks the fixed priority
list sphere, cube, cone, pyramid, cylinder, softie in that order and
returns the shape of the first pair with a keyword occurring as a
substring of the lower-cased input, `"unknown"` when none matches; a text
containing both "ball" and "box" is classified "sphere". -/
theorem shape_priority_first_match :
    SHAPE_RULES.map Prod.fst = ["sphere", "cube", "cone", "pyramid", "cylinder", "softie"]
    ∧ (∀ text, detect_shape text
        = ((SHAPE_RULES.find? (fun r => r.2.any (fun k => pyIn k (pyLower text)))).map
            Prod.fst).getD "unknown")
    ∧ detect_shape "a knitted ball in a box" = "sphere"
    ∧ detect_shape "plain scarf" = "unknown" := by
  refine ⟨by decide, ?_, by decide, by decide⟩
  intro text
  simpa [detect_shape] using detectShapeAux_find SHAPE_RULES (pyLower text)

/-- Claim C6 (confirmed): technique extraction returns exactly the
vocabulary phrases occurring as substrings of the (lower-cased) text,
duplicate-free and sorted lexicographically; the vocabulary has eleven
entries, and extraction is a pure function of the text, hence
deterministic. -/
theorem technique_extraction_spec :
    TECHNIQUES.length = 11
    ∧ (∀ text s, s ∈ techniquesOf text ↔ s ∈ TECHNIQUES ∧ pyIn s (pyLower text) = true)
    ∧ (∀ text, List.Sorted (fun a b => strLe a b = true) (techniquesOf text))
    ∧ (∀ text, (techniquesOf text).Nodup) := by
  refine ⟨rfl, ?_, ?_, ?_⟩
  · intro text s
    simp [techniquesOf, pySorted, pySet, List.mem_insertionSort, List.mem_dedup,
      List.mem_filter]
  · intro text
    exact List.sorted_insertionSort _ _
  · intro text
    exact ((List.perm_insertionSort _ _).nodup_iff).mpr (List.nodup_dedup _)

/-- Claim C7 (confirmed): an href is kept exactly when it contains one of
".pdf", "download", "pattern" case-insensitively and it contains "ravelry"
(in the original spelling) or starts with "http"; the result is
deduplicated, so two anchors with identical hrefs produce one entry. -/
theorem download_link_filter_dedup :
    (∀ hrefs h, h ∈ extract_download_links hrefs
        ↔ h ∈ hrefs
          ∧ ((pyIn ".pdf" (pyLower h) || pyIn "download" (pyLower h)
                || pyIn "pattern" (pyLower h))
              && (pyIn "ravelry" h || pyStartsWith h "http")) = true)
    ∧ (∀ hrefs, (extract_download_links hrefs).Nodup)
    ∧ extract_download_links ["https://example.com/p.pdf", "https://example.com/p.pdf"]
        = ["https://example.com/p.pdf"] := by
  have hcond : ∀ x : String, linkCond x
      = ((pyIn ".pdf" (pyLower x) || pyIn "download" (pyLower x) || pyIn "pattern" (pyLower x))
          && (pyIn "ravelry" x || pyStartsWith x "http")) := by
    intro x
    rw [linkCond]
    simp only [List.any_cons, List.any_nil, Bool.or_false]
    simp [Bool.or_assoc]
  refine ⟨?_, ?_, by decide⟩
  · intro hrefs h
    simp [extract_download_links, pySet, List.mem_dedup, List.mem_filter, hcond]
  · intro hrefs
    exact List.nodup_dedup _

/-- Claim C9 (confirmed): the "ravelry" membership test runs on the
original href while the keyword test runs on the lower-cased href, so a
non-absolute href whose only occurrence of "ravelry" carries an uppercase
letter is excluded even when a download keyword matches
case-insensitively. -/
theorem ravelry_case_sensitive_exclusion (hrefs : List String) (href : String)
    (habs : pyStartsWith href "http" = false)
    (hrav : pyIn "ravelry" href = false) :
    href ∉ extract_download_links hrefs := by
  intro hmem
  rw [extract_download_links, pySet] at hmem
  have hc := (List.mem_filter.mp (List.mem_dedup.mp hmem)).2
  rw [linkCond] at hc
  simp [habs, hrav] at hc

theorem ravelry_case_sensitive_exclusion_witness :
    pyStartsWith "/Ravelry/download.pdf" "http" = false
    ∧ pyIn "ravelry" "/Ravelry/download.pdf" = false
    ∧ pyIn ".pdf" (pyLower "/Ravelry/download.pdf") = true
    ∧ "/Ravelry/download.pdf" ∉ extract_download_links ["/Ravelry/download.pdf"] :=
  ⟨by decide, by decide, by decide,
   ravelry_case_sensitive_exclusion ["/Ravelry/download.pdf"] "/Ravelry/download.pdf"
     (by decide) (by decide)⟩

/-- Claim C8 (confirmed): the translation wrapper never raises — on any
failure of the external call it returns the original text unchanged, and
on success it returns the translated text (the warning print is I/O and
outside the model; totality of the Lean function models "never raises"). -/
theorem translate_passthrough_contract (call : String → Except String String) (text : String) :
    (∀ e, call text = Except.error e → translate_to_english call text = text)
    ∧ (∀ t, call text = Except.ok t → translate_to_english call text = t) := by
  constructor
  · intro e he
    simp [translate_to_english, he]
  · intro t ht
    simp [translate_to_english, ht]

theorem translate_passthrough_contract_witness :
    translate_to_english translateFailStub "hola mundo" = "hola mundo"
    ∧ translate_to_english translateOkStub "hola" = "EN " ++ "hola" :=
  ⟨(translate_passthrough_contract translateFailStub "hola mundo").1
      "HTTPSConnection timeout" rfl,
   (translate_passthrough_contract translateOkStub "hola").2 ("EN " ++ "hola") rfl⟩

/-- Claim C10 (confirmed): the `us\s*([\d\.]+)` scan has no word boundary,
so in "bus 5" the tail "us 5" is taken as US notation: the capture is "5"
and the output is "US 5 (3.75 mm)", not the passthrough of the input. -/
theorem us_scan_matches_word_tails :
    usFindAll "bus 5".toList = [['5']]
    ∧ normalize_needle "bus 5" = "US 5 (3.75 mm)"
    ∧ normalize_needle "bus 5" ≠ pyLower "bus 5" :=
  ⟨by decide, by decide, by decide⟩

/-- Claim C1 counterexample: the raw needle text "4.5 mm bamboo" contains
the descriptive word "bamboo", but the stored field is exactly
"US 7 (4.5 mm)" and "bamboo" is not recoverable from it — normalization
destroyed information of the raw value. -/
theorem needle_word_loss_counterexample :
    pyIn "bamboo" "4.5 mm bamboo" = true
    ∧ normalize_needle "4.5 mm bamboo" = "US 7 (4.5 mm)"
    ∧ pyIn "bamboo" (normalize_needle "4.5 mm bamboo") = false :=
  ⟨by decide, by decide, by decide⟩

/-- Claim C1 amended: once any metric or US pattern is recognized, the
stored needle field is determined solely by the extracted matches — two
raw values with the same matches normalize identically, so descriptive
words outside the matches are discarded, not retained; the raw value
survives only in the (lower-cased) passthrough case. -/
theorem needle_output_depends_only_on_matches (v1 v2 : String)
    (h1 : v1 ≠ "") (h2 : v2 ≠ "")
    (hmm : mmFindAll (pyLower v1).toList = mmFindAll (pyLower v2).toList)
    (hus : usFindAll (pyLower v1).toList = usFindAll (pyLower v2).toList)
    (hne : mmFindAll (pyLower v1).toList ≠ [] ∨ usFindAll (pyLower v1).toList ≠ []) :
    normalize_needle v1 = normalize_needle v2 := by
  have hr : needleResults (pyLower v1) = needleResults (pyLower v2) := by
    rw [needleResults, needleResults, hmm, hus]
  have hrne : needleResults (pyLower v1) ≠ [] := by
    rw [needleResults]
    intro hcontra
    have hnil := List.append_eq_nil.mp hcontra
    rcases hne with h | h
    · exact h (by simpa using hnil.1)
    · exact h (by simpa using hnil.2)
  have hrne2 : needleResults (pyLower v2) ≠ [] := hr ▸ hrne
  simp [normalize_needle, h1, h2, hrne, hrne2, hr]

theorem needle_output_depends_only_on_matches_witness :
    ("4.5 mm bamboo" : String) ≠ ""
    ∧ mmFindAll (pyLower "4.5 mm bamboo").toList = mmFindAll (pyLower "4.5 mm").toList
    ∧ usFindAll (pyLower "4.5 mm bamboo").toList = usFindAll (pyLower "4.5 mm").toList
    ∧ mmFindAll (pyLower "4.5 mm bamboo").toList ≠ []
    ∧ normalize_needle "4.5 mm bamboo" = normalize_needle "4.5 mm" :=
  ⟨by decide, by decide, by decide, by decide,
   needle_output_depends_only_on_matches "4.5 mm bamboo" "4.5 mm" (by decide) (by decide)
     (by decide) (by decide) (Or.inl (by decide))⟩

/-- Claim C2 counterexample: for the metric value 2.12 both table entries
"0" (2.0, difference 0.12) and "1" (2.25, difference 0.13) are within the
0.15 tolerance; the closest is "0", but the loop keeps the last match, so
the code emits "US 1 (2.12 mm)" where the claimed closest-entry rule
(`specClosestFragment`, modelled from the spec) emits "US 0 (2.12 mm)". -/
theorem needle_closest_counterexample :
    mmFindAll "2.12 mm".toList = [['2', '.', '1', '2']]
    ∧ parseFloat ['2', '.', '1', '2'] = ⟨212, 100⟩
    ∧ specClosestFragment ⟨212, 100⟩ = "US 0 (2.12 mm)"
    ∧ normalize_needle "2.12 mm" = "US 1 (2.12 mm)"
    ∧ ("US 1 (2.12 mm)" : String) ≠ "US 0 (2.12 mm)" :=
  ⟨by decide, by decide, by decide, by decide, by decide⟩

/-- Claim C2 amended: the normalizer selects the LAST conversion-table
entry in table order whose absolute difference from the metric value is
strictly below 0.15 (not the closest entry; the two rules differ only when
two entries are within tolerance), emits "US {us} ({mm} mm)" on a match
and "{mm} mm" otherwise; "4.5 mm" → "US 7 (4.5 mm)" and
"7 mm" → "7.0 mm" hold as claimed. -/
theorem needle_lookup_last_entry :
    (∀ mm : PyFloat, mmLookupLoop mm = lastTolEntry mm)
    ∧ normalize_needle "4.5 mm" = "US 7 (4.5 mm)"
    ∧ normalize_needle "7 mm" = "7.0 mm" := by
  refine ⟨?_, by decide, by decide⟩
  intro mm
  have h := foldl_lastPick (fun kv : String × PyFloat => absDiffLtTol kv.2 mm)
    (fun kv => kv.1) US_NEEDLES none
  refine Eq.trans h ?_
  rw [lastTolEntry]
  cases US_NEEDLES.reverse.find? (fun kv => absDiffLtTol kv.2 mm) <;> rfl

/-- Claim C3 counterexample: two blocks labeled "Languages" with span
lists ["English"] and ["German"]; the languages field ends as
["German"] — the most recent block overwrote the first, it did not
accumulate to ["English", "German"]. -/
theorem languages_overwrite_counterexample :
    (processFields
      [⟨some "Languages", some "English, German", ["English"]⟩,
       ⟨some "Languages", some "English, German", ["German"]⟩]).languages
        = some ["German"]
    ∧ (some ["German"] : Option (List String)) ≠ some ["English", "German"] :=
  ⟨by decide, by decide⟩

/-- Claim C3 amended: across the labeled field blocks, only yarn
accumulates (all matching blocks' values, in order); languages — like the
single-valued fields craft, category, needle and sizes available — holds
the value derived from the most recent matching block (for languages, that
block's cleaned span texts; for needle, the normalized cleaned value). -/
theorem field_loop_overwrite_accumulate (bs : List Block) :
    (processFields bs).craft = (lastMatch "craft" bs).map bValue
    ∧ (processFields bs).category = (lastMatch "category" bs).map bValue
    ∧ (processFields bs).needle_size
        = (lastMatch "needle" bs).map (fun b => normalize_needle (bValue b))
    ∧ (processFields bs).sizes_available = (lastMatch "sizes available" bs).map bValue
    ∧ (processFields bs).languages
        = (lastMatch "languages" bs).map (fun b => b.spans.map clean)
    ∧ (processFields bs).yarns = (bs.filter (bMatch "yarn")).map bValue := by
  refine ⟨?_, ?_, ?_, ?_, ?_, ?_⟩
  · exact (foldl_field (fun s => s.craft)
      (fun a b => if bMatch "craft" b then some (bValue b) else a)
      processBlock_craft bs FieldState.init).trans
      (foldl_pick_map (bMatch "craft") bValue bs none).symm
  · exact (foldl_field (fun s => s.category)
      (fun a b => if bMatch "category" b then some (bValue b) else a)
      processBlock_category bs FieldState.init).trans
      (foldl_pick_map (bMatch "category") bValue bs none).symm
  · exact (foldl_field (fun s => s.needle_size)
      (fun a b => if bMatch "needle" b then some (normalize_needle (bValue b)) else a)
      processBlock_needle bs FieldState.init).trans
      (foldl_pick_map (bMatch "needle") (fun b => normalize_needle (bValue b)) bs none).symm
  · exact (foldl_field (fun s => s.sizes_available)
      (fun a b => if bMatch "sizes available" b then some (bValue b) else a)
      processBlock_sizes bs FieldState.init).trans
      (foldl_pick_map (bMatch "sizes available") bValue bs none).symm
  · exact (foldl_field (fun s => s.languages)
      (fun a b => if bMatch "languages" b then some (b.spans.map clean) else a)
      processBlock_languages bs FieldState.init).trans
      (foldl_pick_map (bMatch "languages") (fun b => b.spans.map clean) bs none).symm
  · exact (foldl_field (fun s => s.yarns)
      (fun a b => if bMatch "yarn" b then a ++ [bValue b] else a)
      processBlock_yarns bs FieldState.init).trans
      (by simpa using foldl_accumulate (bMatch "yarn") bValue bs [])

/-- Claim C4 counterexample: "Wooden" matches no metric and no US pattern,
yet the normalizer returns "wooden", not the input unchanged — the
passthrough is of the lower-cased input. -/
theorem needle_passthrough_counterexample :
    mmFindAll "Wooden".toList = []
    ∧ usFindAll "Wooden".toList = []
    ∧ mmFindAll (pyLower "Wooden").toList = []
    ∧ usFindAll (pyLower "Wooden").toList = []
    ∧ normalize_needle "Wooden" ≠ "Wooden" :=
  ⟨by decide, by decide, by decide, by decide, by decide⟩

/-- Claim C4 amended: the normalizer is a total function (never raises);
on empty input it returns the empty string, and when no metric and no US
pattern is recognized it returns the LOWER-CASED input (unchanged only up
to case). -/
theorem needle_passthrough_amended :
    normalize_needle "" = ""
    ∧ ∀ val, mmFindAll (pyLower val).toList = [] → usFindAll (pyLower val).toList = [] →
        normalize_needle val = pyLower val := by
  refine ⟨rfl, ?_⟩
  intro val hmm hus
  by_cases h : val = ""
  · subst h
    rfl
  · have hr : needleResults (pyLower val) = [] := by
      rw [needleResults, hmm, hus]
      rfl
    simp [normalize_needle, h, hr]

theorem needle_passthrough_amended_witness :
    mmFindAll (pyLower "Wooden").toList = []
    ∧ usFindAll (pyLower "Wooden").toList = []
    ∧ normalize_needle "Wooden" = pyLower "Wooden" :=
  ⟨by decide, by decide,
   needle_passthrough_amended.2 "Wooden" (by decide) (by decide)⟩
